import Mathlib

/-!
# Verification of the toc-maker table-of-contents builder

Shallow embedding of the core of the `toc-maker` repository
(`src/helpers.rs`, `src/asset_collector.rs`, `src/toc_factory.rs`) in Lean 4,
together with theorems settling the specification claims about it.

Conventions used throughout:
* Rust machine integers are modelled as `Nat` with an explicit `% 2^w`
  wherever overflow can matter; where a claim explicitly excludes overflow,
  the hypothesis appears on the theorem.
* A Rust `panic!`/`unwrap` failure is modelled as `Option.none`.
* Byte streams are modelled as `List Nat` (the list of written bytes).
-/

namespace TocMaker

/-! ## Alignment primitive (`helpers.rs`, also duplicated in `alignment.rs`)

`AlignableNum::align_to` is generic over the unsigned integer type `O`; the
width of the modelled type is passed as `W` (the modulus, e.g. `2^64` for
`u64`).  The arithmetic `(value + alignment - 1) - ((value + alignment - 1)
% alignment)` is translated literally; the intermediate `value + alignment -
1` wraps at the width, which the explicit `% W` captures (for `alignment ≥ 1`
the Rust expression `*self + al - Self::one()` never wraps below zero, so a
single outer `% W` is exact). -/
/-- Width modulus of `u64`. -/
def U64_LIMIT : Nat := 2 ^ 64

/-- Width modulus of `usize` on the 64-bit targets the crate builds for. -/
def USIZE_LIMIT : Nat := 2 ^ 64

/-- Model of `AlignableNum::align_to` (helpers.rs lines 5-11) at integer
width `W`: `let next = *self + al - Self::one(); next - (next % al)`. -/
def alignNum_align_to (W value alignment : Nat) : Nat :=
  let next := (value + alignment - 1) % W
  next - next % alignment

/-- Model of `AlignableStream::align_to` (helpers.rs lines 19-34).  The
stream is the list of bytes written so far; the function returns the updated
stream together with the updated cursor (`*current_offset` is set to the
aligned value, which is also the return value).  The `Err` branch of
`try_into::<usize>` (a padding gap too large for an in-memory buffer) is the
`panic!("Oversized alignment difference!!")` path, modelled as `none`. -/
def alignStream_align_to (W : Nat) (stream : List Nat)
    (current_offset alignment : Nat) : Option (List Nat × Nat) :=
  let next_alignment := alignNum_align_to W current_offset alignment
  if next_alignment ≠ current_offset then
    if next_alignment - current_offset < USIZE_LIMIT then
      some (stream ++ List.replicate (next_alignment - current_offset) 0,
            next_alignment)
    else
      none
  else
    some (stream, next_alignment)

/-! ## ChunkId derivation (`toc_factory.rs`, `TocFlattener::get_file_hash`)

`IoChunkId` itself lives in `io_toc.rs`, which is not part of the sources;
it is modelled from the spec.  The path normalization of `get_file_hash`
(lines 117-137 of toc_factory.rs) is translated literally, with the
`unwrap`/`expect`/`panic!` failure paths mapped to `none`. -/
/-- `SUITABLE_FILE_EXTENSIONS` (asset_collector.rs line 14). -/
def SUITABLE_FILE_EXTENSIONS : List String := ["uasset", "ubulk", "uptnl", "umap"]

/-- `TocFile` (asset_collector.rs lines 173-179).  The `next` sibling link is
represented positionally: a directory's files are kept as a list in
insertion order. -/
structure TocFile where
  name : String
  file_size : Nat
  os_file_path : String
deriving DecidableEq, Repr

/-- Modelled from the spec: the payload-kind discriminant (`IoChunkType4`
of the missing `io_toc.rs`): export-bundle, bulk, optional-bulk, or
aggregated-header data. -/
inductive IoChunkType4 where
  | ExportBundleData
  | BulkData
  | OptionalBulkData
  | ContainerHeader
deriving DecidableEq, Repr

/-- Modelled from the spec: the hash a ChunkId stores is some fixed
deterministic function of the normalized path string (the concrete hash
function lives in the missing `io_toc.rs`/`string.rs`; only its determinism
matters here, so a simple fold over the characters stands in for it). -/
def path_hash (s : String) : Nat :=
  s.data.foldl (fun acc c => (acc * 31 + c.toNat) % U64_LIMIT) 5381

/-- Modelled from the spec: a ChunkId combines the normalized logical path
hash with the payload-kind discriminant (glossary: "ChunkId: content address
combining a normalized logical path hash and a payload-kind
discriminant"). -/
structure IoChunkId where
  raw_hash : Nat
  chunk_type : IoChunkType4
deriving DecidableEq, Repr

/-- Modelled from the spec: `IoChunkId::new(path, chunk_type)` of the missing
`io_toc.rs` — hash the normalized string together with the payload-kind
discriminant into the ChunkId. -/
def IoChunkId.new (path : String) (chunk_type : IoChunkType4) : IoChunkId :=
  ⟨path_hash path, chunk_type⟩

/-- Model of Rust `str::split_once(char)`: split at the first occurrence of
the character, returning the parts before and after it. -/
def splitOnceCharAux (c : Char) : List Char → Option (List Char × List Char)
  | [] => none
  | x :: xs =>
    if x = c then some ([], xs)
    else
      match splitOnceCharAux c xs with
      | none => none
      | some (a, b) => some (x :: a, b)

/-- String wrapper for `splitOnceCharAux`. -/
def split_once_char (s : String) (c : Char) : Option (String × String) :=
  match splitOnceCharAux c s.data with
  | none => none
  | some (a, b) => some (⟨a⟩, ⟨b⟩)

/-- Model of Rust `str::split_once(&str)`: split at the first occurrence of
the pattern, returning the parts before and after it (the pattern itself is
dropped). -/
def splitOnceStrAux (pat : List Char) : List Char → Option (List Char × List Char)
  | [] => if pat.isPrefixOf ([] : List Char) then some ([], []) else none
  | x :: xs =>
    if pat.isPrefixOf (x :: xs) then some ([], (x :: xs).drop pat.length)
    else
      match splitOnceStrAux pat xs with
      | none => none
      | some (a, b) => some (x :: a, b)

/-- String wrapper for `splitOnceStrAux`. -/
def split_once_str (s pat : String) : Option (String × String) :=
  match splitOnceStrAux pat.data s.data with
  | none => none
  | some (a, b) => some (⟨a⟩, ⟨b⟩)

/-- Model of Rust `str::starts_with`. -/
def starts_with (s pat : String) : Bool :=
  pat.data.isPrefixOf s.data

/-- Extension-to-payload-kind mapping of `get_file_hash` (toc_factory.rs
lines 119-129): the two `panic!` arms (extension outside the suitable set,
or a suitable extension missing from the inner `match`) are `none`. -/
def chunk_type_of (extension : String) : Option IoChunkType4 :=
  if SUITABLE_FILE_EXTENSIONS.contains extension then
    match extension with
    | "uasset" | "umap" => some IoChunkType4.ExportBundleData
    | "ubulk" => some IoChunkType4.BulkData
    | "uptnl" => some IoChunkType4.OptionalBulkData
    | _ => none
  else none

/-- The `Game` prefix rewrite of `get_file_hash` (toc_factory.rs lines
130-133): if the concatenated path does not start with `"Game"`, everything
up to the first `/` is replaced by `"Game/"`; the `unwrap` on a path without
any `/` is `none`. -/
def game_rewrite (dir_path : String) : Option String :=
  if starts_with dir_path "Game" then some dir_path
  else
    match split_once_char dir_path '/' with
    | none => none
    | some (_, aft) => some ("Game/" ++ aft)

/-- The normalized string hashed into the ChunkId (toc_factory.rs lines
130-135): concatenate directory hash path and stem, apply the `Game`
rewrite, split at the first `"/Content"` occurrence, and glue
`"/" + before + after`; the `unwrap` on a path without the anchor is
`none`. -/
def normalized_hash_path (dir_path stem : String) : Option String :=
  (game_rewrite (dir_path ++ stem)).bind fun dp =>
    (split_once_str dp "/Content").map fun p => "/" ++ p.1 ++ p.2

/-- `TocFlattener::get_file_hash` (toc_factory.rs lines 117-137): split the
file name at the first `.` into stem and extension (`expect` -> `none`),
map the extension to the payload kind, normalize the path and build the
ChunkId. -/
def get_file_hash (dir_path : String) (curr_file : TocFile) : Option IoChunkId :=
  match split_once_char curr_file.name '.' with
  | none => none
  | some (stem, extension) =>
    match chunk_type_of extension with
    | none => none
    | some chunk_type =>
      (normalized_hash_path dir_path stem).map fun p => IoChunkId.new p chunk_type

/-! ## The asset tree and the flattener (`asset_collector.rs`, `toc_factory.rs`)

`TocDirectory` owns an ordered chain of child directories and an ordered
chain of files; both chains are modelled positionally (`TocForest` is the
sibling chain headed by a directory's `first_child`, a `List TocFile` is the
file chain headed by `first_file`).  The weak parent reference exists only
to rebuild the hash path during flattening; the embedding passes the
accumulated path components downward instead, which walks the same
root-to-directory names. -/
/-- `u32::MAX`, the sentinel index of the directory/file index entries. -/
def SENTINEL : Nat := 4294967295

/-- `IoDirectoryIndexEntry` (of the missing `io_toc.rs`), as populated by
`TocFlattener::flatten_dir`: interned-name index and the three
position-indices, all `SENTINEL` when absent. -/
structure IoDirectoryIndexEntry where
  name : Nat
  first_child : Nat
  next_sibling : Nat
  first_file : Nat
deriving DecidableEq, Repr

/-- `IoFileIndexEntry` (of the missing `io_toc.rs`), as populated by
`TocFlattener::flatten_dir`: interned-name index, next-file index
(`SENTINEL` when last), `user_data` (the entry's own array position), size,
retained os path and the derived ChunkId (`none` marks the input on which
the Rust code would panic in `get_file_hash`). -/
structure IoFileIndexEntry where
  name : Nat
  next_file : Nat
  user_data : Nat
  file_size : Nat
  os_path : String
  chunk_id : Option IoChunkId
deriving DecidableEq, Repr

mutual
/-- `TocDirectory` (asset_collector.rs lines 102-110): leaf name (none for
the root), owned file chain, owned child-directory chain. -/
inductive TocDirectory where
  | node : Option String → List TocFile → TocForest → TocDirectory
deriving DecidableEq
/-- The owned `first_child`/`next_sibling` chain of `TocDirectory`,
represented positionally. -/
inductive TocForest where
  | nil : TocForest
  | cons : TocDirectory → TocForest → TocForest
deriving DecidableEq
end

/-- Leaf name of a directory. -/
def TocDirectory.dname : TocDirectory → Option String
  | .node n _ _ => n

/-- File chain of a directory, in insertion order. -/
def TocDirectory.dfiles : TocDirectory → List TocFile
  | .node _ fs _ => fs

/-- Child-directory chain of a directory, in insertion order. -/
def TocDirectory.dchildren : TocDirectory → TocForest
  | .node _ _ cs => cs

mutual
/-- All directories of a tree (the directory itself and, transitively, its
children). -/
def all_dirs_dir : TocDirectory → List TocDirectory
  | .node n fs cs => .node n fs cs :: all_dirs_forest cs
/-- All directories of a forest. -/
def all_dirs_forest : TocForest → List TocDirectory
  | .nil => []
  | .cons d rest => all_dirs_dir d ++ all_dirs_forest rest
end

/-- The mutable flattener state (`TocFlattener`, toc_factory.rs lines
19-24): the three coordinated tables. -/
structure FlattenState where
  io_dir_entries : List IoDirectoryIndexEntry
  io_file_entries : List IoFileIndexEntry
  entry_names : List String
deriving DecidableEq, Repr

/-- Model of `Iterator::position(|name| name == test)`: index of the first
occurrence. -/
def list_position (test : String) : List String → Option Nat
  | [] => none
  | x :: xs =>
    if x = test then some 0
    else (list_position test xs).map (· + 1)

/-- `TocFlattener::get_name_index` (toc_factory.rs lines 107-115): linear
scan for the first equal name, appending the name at the end on a miss;
returns the index together with the updated table. -/
def get_name_index (entry_names : List String) (test : String) :
    Nat × List String :=
  match list_position test entry_names with
  | some i => (i, entry_names)
  | none => (entry_names.length, entry_names ++ [test])

/-- The directory hash path of `flatten_dir` (toc_factory.rs lines 55-67):
the collected non-root names from the root down to the directory, joined
with `/` and ending with a trailing `/`. -/
def dir_hash_path (path_comps : List String) : String :=
  String.intercalate "/" path_comps ++ "/"

/-- The file-chain loop of `flatten_dir` (toc_factory.rs lines 69-82): one
`IoFileIndexEntry` per file, `next_file` pointing at the next slot
(`SENTINEL` on the last), `user_data` the entry's own position; `idx` is
`io_file_entries.len()` at the entry's creation.  Returns the new entries
and the updated name table. -/
def flatten_files (dhp : String) (idx : Nat) (entry_names : List String) :
    List TocFile → List IoFileIndexEntry × List String
  | [] => ([], entry_names)
  | f :: rest =>
    let r1 := get_name_index entry_names f.name
    let entry : IoFileIndexEntry :=
      { name := r1.1,
        next_file := if rest.isEmpty then SENTINEL else idx + 1,
        user_data := idx,
        file_size := f.file_size,
        os_path := f.os_file_path,
        chunk_id := get_file_hash dhp f }
    let r2 := flatten_files dhp (idx + 1) r1.2 rest
    (entry :: r2.1, r2.2)

/-- `self.io_dir_entries.get_mut(curr_dir_pos).unwrap().first_child = v`
(toc_factory.rs lines 92-93). -/
def patch_first_child (dirs : List IoDirectoryIndexEntry) (i v : Nat) :
    List IoDirectoryIndexEntry :=
  match dirs[i]? with
  | some e => dirs.set i { e with first_child := v }
  | none => dirs

/-- `self.io_dir_entries.get_mut(curr_dir_pos).unwrap().next_sibling = v`
(toc_factory.rs lines 100-101). -/
def patch_next_sibling (dirs : List IoDirectoryIndexEntry) (i v : Nat) :
    List IoDirectoryIndexEntry :=
  match dirs[i]? with
  | some e => dirs.set i { e with next_sibling := v }
  | none => dirs

/-- The path components including the current directory's own name (the
`path_comps` accumulation that the upward parent walk of toc_factory.rs
lines 58-65 produces for this directory). -/
def child_comps (path_comps : List String) (dn : Option String) : List String :=
  path_comps ++ (match dn with | some t => [t] | none => [])

/-- The non-recursive head of `TocFlattener::flatten_dir` (toc_factory.rs
lines 40-87): intern the directory name, build this directory's
`IoDirectoryIndexEntry` (`first_child`/`next_sibling` still sentinel), emit
the file-chain entries starting at the current file-table length, and push
the directory entry at the reserved position `io_dir_entries.len()`. -/
def flatten_dir_push (st : FlattenState) (path_comps : List String)
    (dn : Option String) (dfs : List TocFile) : FlattenState :=
  let nr := match dn with
    | some t => get_name_index st.entry_names t
    | none => (SENTINEL, st.entry_names)
  let fr := match dfs with
    | [] => (SENTINEL, ([], nr.2))
    | _ => (st.io_file_entries.length,
            flatten_files (dir_hash_path (child_comps path_comps dn))
              st.io_file_entries.length nr.2 dfs)
  let entry : IoDirectoryIndexEntry :=
    { name := nr.1, first_child := SENTINEL, next_sibling := SENTINEL,
      first_file := fr.1 }
  { io_dir_entries := st.io_dir_entries ++ [entry],
    io_file_entries := st.io_file_entries ++ fr.2.1,
    entry_names := fr.2.2 }

mutual
/-- `TocFlattener::flatten_dir` (toc_factory.rs lines 40-105) minus the
next-sibling step, which `flatten_forest` performs for the chain it owns:
after the push, `first_child` of the entry at the reserved position
`curr_pos = st.io_dir_entries.len()` is patched to the next free position
and the children are flattened there. -/
def flatten_dir (st : FlattenState) (path_comps : List String) :
    TocDirectory → FlattenState
  | .node dn dfs dcs =>
    let st1 := flatten_dir_push st path_comps dn dfs
    match dcs with
    | .nil => st1
    | .cons c cs =>
      flatten_forest
        { st1 with
            io_dir_entries :=
              patch_first_child st1.io_dir_entries st.io_dir_entries.length
                st1.io_dir_entries.length }
        (child_comps path_comps dn) (.cons c cs)
/-- The sibling chain of `flatten_dir` (toc_factory.rs lines 97-103): after
a directory's subtree is flattened, its entry's `next_sibling` is patched to
the next free position and the next sibling is flattened there.  `curr_pos`
of the head is its reserved entry position, which equals the directory-table
length on entry. -/
def flatten_forest (st : FlattenState) (path_comps : List String) :
    TocForest → FlattenState
  | .nil => st
  | .cons d rest =>
    let curr_pos := st.io_dir_entries.length
    let st2 := flatten_dir st path_comps d
    match rest with
    | .nil => st2
    | .cons d2 rest2 =>
      flatten_forest
        { st2 with
            io_dir_entries :=
              patch_next_sibling st2.io_dir_entries curr_pos
                st2.io_dir_entries.length }
        path_comps (.cons d2 rest2)
end

/-- `TocFlattener::flatten` (toc_factory.rs lines 27-38): flatten the root
directory (the scanned root has no name and no sibling) starting from empty
tables. -/
def TocFlattener_flatten (root : TocDirectory) : FlattenState :=
  flatten_dir ⟨[], [], []⟩ [] root

/-! ## Flattener invariants

The key invariant: the file entries of one directory's chain occupy
consecutive slots of the file table, linked by `next_file`, and later
flattening steps only ever append to the file/name tables and patch
`first_child`/`next_sibling` of directory entries — never `name` or
`first_file`. -/
/-- The file entries for the chain `fs` sit at slots `base..base+N` of
`files`: entry `j` carries file `j`'s data (name via the name table) and
`next_file` points at the following slot, `SENTINEL` on the last. -/
def FilesBlock (files : List IoFileIndexEntry) (names : List String)
    (base : Nat) (fs : List TocFile) : Prop :=
  ∀ j, (hj : j < fs.length) → ∃ e, files[base + j]? = some e ∧
    names[e.name]? = some (fs.get ⟨j, hj⟩).name ∧
    e.file_size = (fs.get ⟨j, hj⟩).file_size ∧
    e.os_path = (fs.get ⟨j, hj⟩).os_file_path ∧
    e.next_file = (if j + 1 < fs.length then base + j + 1 else SENTINEL)

/-- State extension: the recursive flattening steps only append to the
file and name tables, only append directory entries, and only patch
`first_child`/`next_sibling` of existing directory entries (never `name` or
`first_file`). -/
def SExt (st st2 : FlattenState) : Prop :=
  (∃ d, st2.io_file_entries = st.io_file_entries ++ d) ∧
  (∃ d, st2.entry_names = st.entry_names ++ d) ∧
  st.io_dir_entries.length ≤ st2.io_dir_entries.length ∧
  (∀ (k : Nat) (e : IoDirectoryIndexEntry), st.io_dir_entries[k]? = some e →
     ∃ e2 : IoDirectoryIndexEntry, st2.io_dir_entries[k]? = some e2 ∧
       e2.name = e.name ∧ e2.first_file = e.first_file)

/-- The directory entry at `i` describes the directory `d`: name resolves to
`d`'s name (sentinel for the root), `first_file` is sentinel exactly when
`d` has no files, otherwise it heads an in-range `FilesBlock` of `d`'s
files. -/
def GoodDirAt (st : FlattenState) (i : Nat) (d : TocDirectory) : Prop :=
  ∃ e, st.io_dir_entries[i]? = some e ∧
    (d.dname = none → e.name = SENTINEL) ∧
    (∀ t, d.dname = some t → st.entry_names[e.name]? = some t) ∧
    (d.dfiles = [] → e.first_file = SENTINEL) ∧
    (d.dfiles ≠ [] →
      e.first_file + d.dfiles.length ≤ st.io_file_entries.length ∧
      FilesBlock st.io_file_entries st.entry_names e.first_file d.dfiles)

/-- Some directory entry describes `d`. -/
def GoodDir (st : FlattenState) (d : TocDirectory) : Prop :=
  ∃ i, GoodDirAt st i d

/-! ## The first-child layout invariant -/
/-- Every directory entry's `first_child` is either the sentinel or the
entry's own position plus one. -/
def FCInvL (dirs : List IoDirectoryIndexEntry) : Prop :=
  ∀ (i : Nat) (e : IoDirectoryIndexEntry), dirs[i]? = some e →
    e.first_child = SENTINEL ∨ e.first_child = i + 1

/-! ## Following a file chain -/
/-- Walk the file table from `idx` along `next_file` links, collecting the
visited entries, stopping at the sentinel (the fuel only serves
termination; the table length is always enough fuel for an intact chain). -/
def follow_chain (files : List IoFileIndexEntry) :
    Nat → Nat → List IoFileIndexEntry
  | 0, _ => []
  | fuel + 1, idx =>
    match files[idx]? with
    | none => []
    | some e =>
      if e.next_file = SENTINEL then [e]
      else e :: follow_chain files fuel e.next_file

/-- A small concrete scan result: `root/Game/Content/{A.uasset, B.ubulk}`
(two files in one directory, nested two levels below the nameless root). -/
def exampleContentDir : TocDirectory :=
  .node (some "Content")
    [⟨"A.uasset", 2, "root/Game/Content/A.uasset"⟩,
     ⟨"B.ubulk", 0, "root/Game/Content/B.ubulk"⟩] .nil

/-- The `Game` directory holding `exampleContentDir`. -/
def exampleGameDir : TocDirectory :=
  .node (some "Game") [] (.cons exampleContentDir .nil)

/-- The nameless scan root above `exampleGameDir`. -/
def exampleRoot : TocDirectory :=
  .node none [] (.cons exampleGameDir .nil)

/-! ## The alternative-ordering post-pass of `TocFactory::write_files`
(toc_factory.rs lines 182-208) -/
/-- Model of Rust `str::split(char)` (list of the separated pieces). -/
def split_char (c : Char) : List Char → List (List Char)
  | [] => [[]]
  | x :: xs =>
    if x = c then [] :: split_char c xs
    else
      match split_char c xs with
      | [] => [[x]]
      | g :: gs => (x :: g) :: gs

/-- `a.os_path.split('/').rev().skip(1).collect::<String>()` (toc_factory.rs
lines 183-184): the path components in reverse order, minus the file name,
concatenated. -/
def parent_key (os_path : String) : String :=
  ⟨(((split_char '/' os_path.data).reverse).drop 1).flatten⟩

/-- Model of Rust `str::ends_with`. -/
def ends_with (s pat : String) : Bool :=
  pat.data.isSuffixOf s.data

/-- The comparator of the `files.sort_by` post-pass (toc_factory.rs lines
182-205): `.ubulk` files after all others; within each group by parent key,
ties broken by ascending file size. -/
def file_cmp (a b : IoFileIndexEntry) : Ordering :=
  let apar := parent_key a.os_path
  let bpar := parent_key b.os_path
  let pord := compare apar bpar
  if ends_with a.os_path ".ubulk" then
    if ends_with b.os_path ".ubulk" then
      match pord with
      | .eq => compare a.file_size b.file_size
      | _ => pord
    else .gt
  else if ends_with b.os_path ".ubulk" then .lt
  else
    match pord with
    | .eq => compare a.file_size b.file_size
    | _ => pord

/-- Stable insertion into a sorted list: the new element goes before the
first element that is not strictly smaller. -/
def sort_insert (cmp : IoFileIndexEntry → IoFileIndexEntry → Ordering)
    (x : IoFileIndexEntry) :
    List IoFileIndexEntry → List IoFileIndexEntry
  | [] => [x]
  | y :: ys =>
    match cmp x y with
    | .gt => y :: sort_insert cmp x ys
    | _ => x :: y :: ys

/-- Model of `Vec::sort_by` (a stable sort; insertion sort placing each
element before the first not-smaller one is stable and agrees with any
stable sort for the same comparator). -/
def sort_by (cmp : IoFileIndexEntry → IoFileIndexEntry → Ordering) :
    List IoFileIndexEntry → List IoFileIndexEntry
  | [] => []
  | x :: xs => sort_insert cmp x (sort_by cmp xs)

/-- The renumbering loop `for i in 0..files.len() { files[i].user_data = i }`
(toc_factory.rs lines 206-208). -/
def renumber_user_data (i : Nat) :
    List IoFileIndexEntry → List IoFileIndexEntry
  | [] => []
  | f :: rest => { f with user_data := i } :: renumber_user_data (i + 1) rest

/-- The flattened-file-list post-pass of `TocFactory::write_files`
(toc_factory.rs lines 182-208): sort by `file_cmp`, then renumber
`user_data` to the final positions.  Nothing else is touched: in particular
`next_file` of the file entries and `first_file` of the directory entries
keep their pre-sort values. -/
def write_files_post (files : List IoFileIndexEntry) :
    List IoFileIndexEntry :=
  renumber_user_data 0 (sort_by file_cmp files)

/-- A scan result whose sort post-pass actually reorders: two `.uasset`
files in one directory with descending sizes (the comparator orders them
ascending by size). -/
def exampleSwapDir : TocDirectory :=
  .node (some "Content")
    [⟨"A.uasset", 2, "root/Game/Content/A.uasset"⟩,
     ⟨"C.uasset", 1, "root/Game/Content/C.uasset"⟩] .nil

/-- The nameless scan root above `exampleSwapDir`. -/
def exampleSwapRoot : TocDirectory :=
  .node none []
    (.cons (.node (some "Game") [] (.cons exampleSwapDir .nil)) .nil)

/-! ## The payload block writer (`TocFactory::write_compressed_file`,
toc_factory.rs lines 292-312) -/
/-- Modelled from the spec: a `CompressionBlockEntry` of the missing
`io_toc.rs` records the physical block offset, the compressed size and the
uncompressed size (the codec tag is omitted: only the identity "store" codec
exists in this code, under which the two sizes coincide at every call
site). -/
structure IoStoreTocCompressedBlockEntry where
  offset : Nat
  compressed_size : Nat
  uncompressed_size : Nat
deriving DecidableEq, Repr

/-- Modelled from the spec: `IoStoreTocCompressedBlockEntry::new(offset,
len, compressed_len)` as invoked at toc_factory.rs lines 253 and 307 (`len`
is the uncompressed block length read from the file, `compressed_len` the
written length; they are equal under the identity codec). -/
def IoStoreTocCompressedBlockEntry.new (offset len compressed_len : Nat) :
    IoStoreTocCompressedBlockEntry :=
  ⟨offset, compressed_len, len⟩

/-- The read-compress-write loop of `TocFactory::write_compressed_file`
(toc_factory.rs lines 296-309): each iteration reads up to
`max_compression_block_size` bytes (an on-disk file always yields a full
read), breaks on a zero-length read, aligns the physical offset to the
block alignment, records a block entry at the pre-write offset, and
advances the offset by the written length.  `remaining` is the number of
unread bytes; the fuel equals the file size, which bounds the iteration
count since every non-final iteration consumes at least one byte.  The
written bytes themselves go to the external `ucas` stream; the model tracks
the offset bookkeeping and the produced entries. -/
def write_compressed_file_go (B al : Nat) :
    Nat → Nat → Nat → List IoStoreTocCompressedBlockEntry × Nat
  | 0, _, offset => ([], offset)
  | fuel + 1, remaining, offset =>
    let len := min B remaining
    if len = 0 then ([], offset)
    else
      let off2 := alignNum_align_to U64_LIMIT offset al
      let r := write_compressed_file_go B al fuel (remaining - len)
        (off2 + len)
      (IoStoreTocCompressedBlockEntry.new off2 len len :: r.1, r.2)

/-- `TocFactory::write_compressed_file` (toc_factory.rs lines 292-312) for a
file of `file_size` bytes, starting at physical offset `offset`, with block
size `B` and block alignment `al`; returns the produced
`IoStoreTocCompressedBlockEntry` list and the final offset. -/
def write_compressed_file (B al file_size offset : Nat) :
    List IoStoreTocCompressedBlockEntry × Nat :=
  write_compressed_file_go B al file_size file_size offset

/-! ## The scan phase (`AssetCollector::add_folder`, asset_collector.rs
lines 48-91) -/
/-- One filesystem entry as yielded by the `fs::read_dir` iterator: an
`Err` from the iterator, a subdirectory, or a regular file.  A file carries
its name, its extension as `Path::extension` reports it, its size, and the
verdict the external header validator (`io_package::is_valid_asset_type`)
would give on its first bytes. -/
inductive FsEntry where
  | err : String → FsEntry
  | dir : String → List FsEntry → FsEntry
  | file : String → Option String → Nat → Bool → FsEntry

/-- `AssetCollectorProfiler` (asset_collector.rs lines 213-224), restricted
to the fields `add_folder` writes. -/
structure AssetCollectorProfiler where
  failed_file_system_objects : List (String × String)
  directory_count : Nat
  added_files_count : Nat
  added_files_size : Nat
  skipped_files : List (String × String)
  skipped_file_size : Nat
deriving DecidableEq, Repr

/-- `AssetCollectorProfiler::add_failed_fs_object` (lines 269-271). -/
def AssetCollectorProfiler.add_failed_fs_object
    (p : AssetCollectorProfiler) (parent_dir reason : String) :
    AssetCollectorProfiler :=
  { p with failed_file_system_objects :=
      p.failed_file_system_objects ++ [(parent_dir, reason)] }

/-- `AssetCollectorProfiler::add_skipped_file` (lines 273-276). -/
def AssetCollectorProfiler.add_skipped_file (p : AssetCollectorProfiler)
    (os_path reason : String) (size : Nat) : AssetCollectorProfiler :=
  { p with skipped_files := p.skipped_files ++ [(os_path, reason)],
           skipped_file_size := p.skipped_file_size + size }

/-- `AssetCollectorProfiler::add_directory` (lines 277-279). -/
def AssetCollectorProfiler.add_directory (p : AssetCollectorProfiler) :
    AssetCollectorProfiler :=
  { p with directory_count := p.directory_count + 1 }

/-- `AssetCollectorProfiler::add_added_file` (lines 280-283). -/
def AssetCollectorProfiler.add_added_file (p : AssetCollectorProfiler)
    (size : Nat) : AssetCollectorProfiler :=
  { p with added_files_count := p.added_files_count + 1,
           added_files_size := p.added_files_size + size }

/-- `AssetCollector::add_folder` (asset_collector.rs lines 48-91): walk the
entries of one directory, recursing into subdirectories (creating their
`TocDirectory` nodes), appending eligible files, and routing iterator
errors, unsupported/missing extensions and failed header validations to the
profiler while continuing with the remaining entries.  Returns the child
forest and file chain built for the current directory plus the updated
profiler. -/
def add_folder (os_folder_path : String) (prof : AssetCollectorProfiler) :
    List FsEntry → TocForest × List TocFile × AssetCollectorProfiler
  | [] => (.nil, [], prof)
  | .err reason :: rest =>
    add_folder os_folder_path
      (prof.add_failed_fs_object os_folder_path reason) rest
  | .dir name sub :: rest =>
    let inner := add_folder (os_folder_path ++ "/" ++ name) prof sub
    let r := add_folder os_folder_path (inner.2.2.add_directory) rest
    (.cons (.node (some name) inner.2.1 inner.1) r.1, r.2.1, r.2.2)
  | .file name ext size valid_header :: rest =>
    match ext with
    | some file_extension =>
      if SUITABLE_FILE_EXTENSIONS.contains file_extension then
        if (file_extension = "uasset" ∨ file_extension = "umap") ∧
            valid_header = false then
          add_folder os_folder_path
            (prof.add_skipped_file os_folder_path
              "Was not in TOC-specific uasset format" size) rest
        else
          let r := add_folder os_folder_path
            (prof.add_added_file size) rest
          (r.1, (⟨name, size, os_folder_path ++ "/" ++ name⟩ : TocFile) ::
            r.2.1, r.2.2)
      else
        add_folder os_folder_path
          (prof.add_skipped_file (os_folder_path ++ "/" ++ name)
            "Unsupported file type" size) rest
    | none =>
      add_folder os_folder_path
        (prof.add_skipped_file (os_folder_path ++ "/" ++ name)
          "No file extension" size) rest

/-! ## Theorems -/

theorem alignNum_align_to_eq (W value alignment : Nat) (_hal : 0 < alignment)
    (hov : value + alignment - 1 < W) :
    alignNum_align_to W value alignment =
      (value + alignment - 1) - (value + alignment - 1) % alignment := by
  unfold alignNum_align_to
  rw [Nat.mod_eq_of_lt hov]

/-- C7: for non-negative `value` and positive `alignment` with no overflow of
`value + alignment - 1` at the integer width, `align_to` returns the smallest
multiple of `alignment` that is `≥ value`: it is divisible by `alignment`,
at least `value`, and below `value + alignment` — for any positive alignment,
not only powers of two. -/
theorem align_to_correct (W value alignment : Nat) (hal : 0 < alignment)
    (hov : value + alignment - 1 < W) :
    alignNum_align_to W value alignment % alignment = 0 ∧
    value ≤ alignNum_align_to W value alignment ∧
    alignNum_align_to W value alignment < value + alignment := by
  rw [alignNum_align_to_eq W value alignment hal hov]
  set n := value + alignment - 1 with hn
  have hdm : alignment * (n / alignment) + n % alignment = n :=
    Nat.div_add_mod n alignment
  have hmlt : n % alignment < alignment := Nat.mod_lt _ hal
  refine ⟨?_, ?_, ?_⟩
  · have : n - n % alignment = alignment * (n / alignment) := by omega
    rw [this]
    exact Nat.mul_mod_right _ _
  · omega
  · omega

/-- C7 witness: concrete instance at `u64` width, `value = 100`,
`alignment = 64` (not a power-of-two alignment is also fine, see the
hypotheses: only positivity is required). -/
theorem align_to_correct_witness :
    0 < 64 ∧ (100 : Nat) + 64 - 1 < U64_LIMIT ∧
    (alignNum_align_to U64_LIMIT 100 64 % 64 = 0 ∧
     100 ≤ alignNum_align_to U64_LIMIT 100 64 ∧
     alignNum_align_to U64_LIMIT 100 64 < 100 + 64) :=
  ⟨by decide, by decide,
   align_to_correct U64_LIMIT 100 64 (by decide) (by decide)⟩

/-- C8: for every stream, cursor and positive alignment (no overflow of
`cursor + alignment - 1` at the width), the stream padding operation writes
exactly `align_up(cursor, alignment) - cursor` zero bytes (in particular no
bytes at all when the cursor is already aligned), sets the cursor to
`align_up(cursor, alignment)` and returns it; when the padding gap does not
fit a `usize` (possible for the wider `AlignableNum` instances such as
`u128`) the operation is the fatal `panic!` instead of an allocation. -/
theorem pad_stream_correct (W : Nat) (stream : List Nat)
    (cursor alignment : Nat) (hal : 0 < alignment)
    (hov : cursor + alignment - 1 < W) :
    (alignNum_align_to W cursor alignment - cursor < USIZE_LIMIT →
      alignStream_align_to W stream cursor alignment =
        some (stream ++
                List.replicate
                  (alignNum_align_to W cursor alignment - cursor) 0,
              alignNum_align_to W cursor alignment)) ∧
    (cursor % alignment = 0 →
      alignStream_align_to W stream cursor alignment =
        some (stream, cursor)) ∧
    (USIZE_LIMIT ≤ alignNum_align_to W cursor alignment - cursor →
      alignStream_align_to W stream cursor alignment = none) := by
  have hcor := align_to_correct W cursor alignment hal hov
  set a := alignNum_align_to W cursor alignment with ha
  refine ⟨?_, ?_, ?_⟩
  · intro hfit
    unfold alignStream_align_to
    rw [← ha]
    by_cases heq : a = cursor
    · simp [heq, List.replicate]
    · simp [heq, hfit]
  · intro haligned
    have haeq : a = cursor := by
      rw [ha, alignNum_align_to_eq W cursor alignment hal hov]
      have hdm : alignment * ((cursor + alignment - 1) / alignment) +
          (cursor + alignment - 1) % alignment = cursor + alignment - 1 :=
        Nat.div_add_mod _ alignment
      have hmlt : (cursor + alignment - 1) % alignment < alignment :=
        Nat.mod_lt _ hal
      -- cursor is a multiple of alignment, so rounding up cursor+al-1 gives cursor
      obtain ⟨k, hk⟩ := Nat.dvd_of_mod_eq_zero haligned
      have hk2 : cursor + alignment - 1 = alignment * k + (alignment - 1) := by
        omega
      have : (cursor + alignment - 1) % alignment = alignment - 1 := by
        rw [hk2, Nat.mul_add_mod]
        exact Nat.mod_eq_of_lt (by omega)
      omega
    unfold alignStream_align_to
    rw [← ha]
    simp [haeq]
  · intro hbig
    unfold alignStream_align_to
    rw [← ha]
    have hpos : 0 < USIZE_LIMIT := by norm_num [USIZE_LIMIT]
    have hne : a ≠ cursor := by
      intro h
      rw [h, Nat.sub_self] at hbig
      omega
    rw [if_pos hne, if_neg (by omega)]

/-- C8 witness: at `u64` width, cursor `5`, alignment `16`: three padding
bytes... (the gap is `11`); both the in-range conclusion and the
already-aligned conclusion are exercised (the latter at cursor `32`). -/
theorem pad_stream_correct_witness :
    (alignStream_align_to U64_LIMIT [7] 5 16 =
      some ([7] ++ List.replicate 11 0, 16)) ∧
    (alignStream_align_to U64_LIMIT [7] 32 16 = some ([7], 32)) := by
  constructor
  · have h := pad_stream_correct U64_LIMIT [7] 5 16 (by decide) (by decide)
    have h1 := h.1 (by decide)
    have : alignNum_align_to U64_LIMIT 5 16 = 16 := by decide
    rw [this] at h1
    exact h1
  · have h := pad_stream_correct U64_LIMIT [7] 32 16 (by decide) (by decide)
    exact h.2.1 (by decide)

theorem splitOnceStrAux_sound (pat : List Char) :
    ∀ l a b, splitOnceStrAux pat l = some (a, b) → l = a ++ pat ++ b := by
  intro l
  induction l with
  | nil =>
    intro a b h
    unfold splitOnceStrAux at h
    by_cases hp : pat.isPrefixOf ([] : List Char)
    · rw [if_pos hp] at h
      have hpe : pat = [] := by
        have := List.IsPrefix.length_le (List.isPrefixOf_iff_prefix.mp hp)
        simpa using List.eq_nil_of_length_eq_zero (by simpa using this)
      cases h
      simp [hpe]
    · rw [if_neg hp] at h
      cases h
  | cons x xs ih =>
    intro a b h
    unfold splitOnceStrAux at h
    by_cases hp : pat.isPrefixOf (x :: xs)
    · rw [if_pos hp] at h
      obtain ⟨t, ht⟩ := List.isPrefixOf_iff_prefix.mp hp
      rw [← ht, List.drop_left] at h
      cases h
      simp [← ht]
    · rw [if_neg hp] at h
      cases hrec : splitOnceStrAux pat xs with
      | none => rw [hrec] at h; cases h
      | some p =>
        obtain ⟨a1, b1⟩ := p
        rw [hrec] at h
        have h2 : (x :: a1, b1) = (a, b) := by injection h
        have ha : x :: a1 = a := congrArg Prod.fst h2
        have hb : b1 = b := congrArg Prod.snd h2
        subst ha
        subst hb
        have hxs := ih a1 b1 hrec
        simp [hxs]

theorem split_once_str_sound (s pat a b : String)
    (h : split_once_str s pat = some (a, b)) : s = a ++ pat ++ b := by
  unfold split_once_str at h
  cases hrec : splitOnceStrAux pat.data s.data with
  | none => rw [hrec] at h; cases h
  | some p =>
    obtain ⟨la, lb⟩ := p
    rw [hrec] at h
    have h2 : (String.mk la, String.mk lb) = (a, b) := by injection h
    have ha : String.mk la = a := congrArg Prod.fst h2
    have hb : String.mk lb = b := congrArg Prod.snd h2
    subst ha
    subst hb
    have hl := splitOnceStrAux_sound pat.data s.data la lb hrec
    show s = String.mk la ++ pat ++ String.mk lb
    cases s with
    | mk d =>
    cases pat with
    | mk pd =>
    exact congrArg String.mk hl

/-- C1 counterexample: for the accepted file `Foo.uasset` in the directory
hash path `Game/Content/`, the string hashed into the ChunkId is
`"/Game/Foo"` — the prefix `"Game"` before the anchor segment `"/Content"`
is retained (with a `/` prepended), not stripped; the claim's "remainder
after the anchor with a single leading separator" would be `"/Foo"`, a
different string. -/
theorem c1_counterexample :
    normalized_hash_path "Game/Content/" "Foo" = some "/Game/Foo" ∧
    get_file_hash "Game/Content/" ⟨"Foo.uasset", 100, "p"⟩ =
      some (IoChunkId.new "/Game/Foo" IoChunkType4.ExportBundleData) ∧
    ("/Game/Foo" : String) ≠ "/Foo" := by
  refine ⟨by decide, by decide, by decide⟩

/-- C1 amended: for every accepted file, after the `Game` rewrite the
normalized string hashed into its ChunkId is a single leading separator
followed by the prefix before the first `"/Content"` occurrence concatenated
with the remainder after it — only the anchor segment itself is removed, the
prefix before it is retained; if the anchor segment is absent, ChunkId
derivation fails fatally rather than producing an id. -/
theorem c1_amended (dir_path : String) (f : TocFile) (stem extension : String)
    (ct : IoChunkType4) (dp : String)
    (hsplit : split_once_char f.name '.' = some (stem, extension))
    (hct : chunk_type_of extension = some ct)
    (hg : game_rewrite (dir_path ++ stem) = some dp) :
    (∀ a b, split_once_str dp "/Content" = some (a, b) →
        dp = a ++ "/Content" ++ b ∧
        normalized_hash_path dir_path stem = some ("/" ++ a ++ b) ∧
        get_file_hash dir_path f = some (IoChunkId.new ("/" ++ a ++ b) ct)) ∧
    (split_once_str dp "/Content" = none →
        normalized_hash_path dir_path stem = none ∧
        get_file_hash dir_path f = none) := by
  constructor
  · intro a b hsp
    refine ⟨split_once_str_sound dp "/Content" a b hsp, ?_, ?_⟩
    · unfold normalized_hash_path
      rw [hg]
      simp [hsp]
    · simp only [get_file_hash, hsplit, hct]
      unfold normalized_hash_path
      rw [hg]
      simp [hsp]
  · intro hsp
    constructor
    · unfold normalized_hash_path
      rw [hg]
      simp [hsp]
    · simp only [get_file_hash, hsplit, hct]
      unfold normalized_hash_path
      rw [hg]
      simp [hsp]

/-- C1 amended witness: concrete instance of the amended claim at the
counterexample input. -/
theorem c1_amended_witness :
    ("Game/Content/Foo" : String) = "Game" ++ "/Content" ++ "/Foo" ∧
    normalized_hash_path "Game/Content/" "Foo" = some ("/" ++ "Game" ++ "/Foo") ∧
    get_file_hash "Game/Content/" ⟨"Foo.uasset", 100, "p"⟩ =
      some (IoChunkId.new ("/" ++ "Game" ++ "/Foo") IoChunkType4.ExportBundleData) :=
  (c1_amended "Game/Content/" ⟨"Foo.uasset", 100, "p"⟩ "Foo" "uasset"
      IoChunkType4.ExportBundleData "Game/Content/Foo"
      (by decide) (by decide) (by decide)).1 "Game" "/Foo" (by decide)

/-- C2: the ChunkId is a function of the normalized logical path and payload
kind only.  First conjunct: the ChunkId computation reads nothing of a file
but its name — two files with the same name in the same directory hash path
get the same ChunkId no matter their size, on-disk path or byte content
(content is not even an input).  Second conjunct: any two files (in possibly
different directories) whose normalized paths and payload kinds coincide get
bit-identical ChunkIds. -/
theorem c2_chunkid_determinism :
    (∀ d f1 f2, TocFile.name f1 = TocFile.name f2 →
        get_file_hash d f1 = get_file_hash d f2) ∧
    (∀ d1 d2 f1 f2 s1 e1 s2 e2 t,
        split_once_char (TocFile.name f1) '.' = some (s1, e1) →
        split_once_char (TocFile.name f2) '.' = some (s2, e2) →
        chunk_type_of e1 = some t →
        chunk_type_of e2 = some t →
        normalized_hash_path d1 s1 = normalized_hash_path d2 s2 →
        get_file_hash d1 f1 = get_file_hash d2 f2) := by
  constructor
  · intro d f1 f2 h
    unfold get_file_hash
    rw [h]
  · intro d1 d2 f1 f2 s1 e1 s2 e2 t h1 h2 hct1 hct2 hn
    simp only [get_file_hash, h1, h2, hct1, hct2]
    rw [hn]

/-- C2 witness: byte-content independence (same name, different size and
os path) and path/kind identity (`Foo.uasset` under `Game/Content/` vs
`Foo.umap` under `Mods/Content/` — the `Game` rewrite makes the normalized
paths equal, and `uasset`/`umap` share the export-bundle kind). -/
theorem c2_chunkid_determinism_witness :
    (get_file_hash "Game/Content/" ⟨"Foo.uasset", 1, "a"⟩ =
      get_file_hash "Game/Content/" ⟨"Foo.uasset", 2, "b"⟩) ∧
    (get_file_hash "Game/Content/" ⟨"Foo.uasset", 1, "a"⟩ =
      get_file_hash "Mods/Content/" ⟨"Foo.umap", 999, "c"⟩) :=
  ⟨c2_chunkid_determinism.1 "Game/Content/" ⟨"Foo.uasset", 1, "a"⟩
      ⟨"Foo.uasset", 2, "b"⟩ rfl,
   c2_chunkid_determinism.2 "Game/Content/" "Mods/Content/"
      ⟨"Foo.uasset", 1, "a"⟩ ⟨"Foo.umap", 999, "c"⟩
      "Foo" "uasset" "Foo" "umap" IoChunkType4.ExportBundleData
      (by decide) (by decide) (by decide) (by decide) (by decide)⟩

/-! ## Name interning (`TocFlattener::get_name_index`) -/
theorem list_position_lookup (test : String) :
    ∀ (ns : List String) (i : Nat),
      list_position test ns = some i → ns[i]? = some test := by
  intro ns
  induction ns with
  | nil => intro i h; simp [list_position] at h
  | cons x xs ih =>
    intro i h
    unfold list_position at h
    by_cases hx : x = test
    · rw [if_pos hx] at h
      have h0 : (0 : Nat) = i := by injection h
      subst h0
      simp [hx]
    · rw [if_neg hx] at h
      cases hpos : list_position test xs with
      | none => rw [hpos] at h; cases h
      | some j =>
        rw [hpos, Option.map_some'] at h
        have hj : j + 1 = i := by injection h
        subst hj
        simpa using ih j hpos

theorem list_position_append_self (t : String) :
    ∀ ns, list_position t ns = none →
      list_position t (ns ++ [t]) = some ns.length := by
  intro ns
  induction ns with
  | nil => intro _; simp [list_position]
  | cons x xs ih =>
    intro h
    simp only [list_position] at h
    by_cases hx : x = t
    · rw [if_pos hx] at h
      simp at h
    · rw [if_neg hx] at h
      have hxs : list_position t xs = none := by
        cases hpos : list_position t xs with
        | none => rfl
        | some j => rw [hpos] at h; simp at h
      show list_position t (x :: (xs ++ [t])) = some (x :: xs).length
      simp only [list_position]
      rw [if_neg hx, ih hxs]
      simp

theorem get_name_index_sublist (ns : List String) (t : String) :
    ∃ d, (get_name_index ns t).2 = ns ++ d := by
  unfold get_name_index
  cases h : list_position t ns with
  | some i => exact ⟨[], by simp⟩
  | none => exact ⟨[t], rfl⟩

theorem get_name_index_lookup (ns : List String) (t : String) :
    (get_name_index ns t).2[(get_name_index ns t).1]? = some t := by
  unfold get_name_index
  cases h : list_position t ns with
  | some i => simpa using list_position_lookup t ns i h
  | none => exact List.getElem?_concat_length ns t

/-- C6: name interning over the shared string table is idempotent and
injective.  First conjunct: after a string has been interned, every further
lookup returns the same index and leaves the table unchanged.  Second
conjunct: interning two distinct strings assigns distinct indices.  Third
conjunct: indices are assigned in first-seen order — a string not yet in the
table gets the current table length as its index and is appended at the
end. -/
theorem c6_name_interning :
    (∀ ns t, get_name_index (get_name_index ns t).2 t = get_name_index ns t) ∧
    (∀ ns t1 t2, t1 ≠ t2 →
        (get_name_index (get_name_index ns t1).2 t2).1 ≠
          (get_name_index ns t1).1) ∧
    (∀ ns t, list_position t ns = none →
        get_name_index ns t = (ns.length, ns ++ [t])) := by
  refine ⟨?_, ?_, ?_⟩
  · intro ns t
    unfold get_name_index
    cases h : list_position t ns with
    | some i => simp [h]
    | none =>
      have := list_position_append_self t ns h
      simp [this]
  · intro ns t1 t2 hne heq
    have h1 : (get_name_index ns t1).2[(get_name_index ns t1).1]? = some t1 :=
      get_name_index_lookup ns t1
    have h2 : (get_name_index (get_name_index ns t1).2 t2).2[
        (get_name_index (get_name_index ns t1).2 t2).1]? = some t2 :=
      get_name_index_lookup (get_name_index ns t1).2 t2
    obtain ⟨d, hd⟩ := get_name_index_sublist (get_name_index ns t1).2 t2
    rw [heq, hd] at h2
    have hlt : (get_name_index ns t1).1 < ((get_name_index ns t1).2).length := by
      rw [List.getElem?_eq_some] at h1
      exact h1.1
    rw [List.getElem?_append, if_pos hlt, h1] at h2
    exact hne (by injection h2)
  · intro ns t h
    unfold get_name_index
    rw [h]

/-- C6 witness: a fresh string gets index = length and is appended; a
repeated lookup is stable; a distinct string gets a distinct index. -/
theorem c6_name_interning_witness :
    (get_name_index (get_name_index ["a"] "b").2 "b" =
      get_name_index ["a"] "b") ∧
    ((get_name_index (get_name_index ["a"] "b").2 "c").1 ≠
      (get_name_index ["a"] "b").1) ∧
    (get_name_index ["a"] "b" = (1, ["a", "b"])) :=
  ⟨c6_name_interning.1 ["a"] "b",
   c6_name_interning.2.1 ["a"] "b" "c" (by decide),
   by
    have := c6_name_interning.2.2 ["a"] "b" (by decide)
    simpa using this⟩

theorem FilesBlock_extend (files : List IoFileIndexEntry)
    (names : List String) (df : List IoFileIndexEntry) (dn : List String)
    (base : Nat) (fs : List TocFile)
    (h : FilesBlock files names base fs) :
    FilesBlock (files ++ df) (names ++ dn) base fs := by
  intro j hj
  obtain ⟨e, he, hn, hs, ho, hnx⟩ := h j hj
  refine ⟨e, ?_, ?_, hs, ho, hnx⟩
  · have hlt : base + j < files.length := (List.getElem?_eq_some.mp he).1
    rw [List.getElem?_append, if_pos hlt]
    exact he
  · have hlt : e.name < names.length := (List.getElem?_eq_some.mp hn).1
    rw [List.getElem?_append, if_pos hlt]
    exact hn

theorem flatten_files_spec (dhp : String) :
    ∀ (fs : List TocFile) (ns : List String)
      (files0 : List IoFileIndexEntry),
      (flatten_files dhp files0.length ns fs).1.length = fs.length ∧
      (∃ d, (flatten_files dhp files0.length ns fs).2 = ns ++ d) ∧
      FilesBlock (files0 ++ (flatten_files dhp files0.length ns fs).1)
        (flatten_files dhp files0.length ns fs).2 files0.length fs := by
  intro fs
  induction fs with
  | nil =>
    intro ns files0
    refine ⟨rfl, ⟨[], by simp [flatten_files]⟩, ?_⟩
    intro j hj
    exact absurd hj (by simp)
  | cons f rest ih =>
    intro ns files0
    have hstep :
        flatten_files dhp files0.length ns (f :: rest) =
          (({ name := (get_name_index ns f.name).1,
              next_file := if rest.isEmpty then SENTINEL
                           else files0.length + 1,
              user_data := files0.length,
              file_size := f.file_size,
              os_path := f.os_file_path,
              chunk_id := get_file_hash dhp f } : IoFileIndexEntry) ::
            (flatten_files dhp (files0.length + 1)
              (get_name_index ns f.name).2 rest).1,
           (flatten_files dhp (files0.length + 1)
              (get_name_index ns f.name).2 rest).2) := by
      simp only [flatten_files]
    set entry : IoFileIndexEntry :=
      { name := (get_name_index ns f.name).1,
        next_file := if rest.isEmpty then SENTINEL else files0.length + 1,
        user_data := files0.length,
        file_size := f.file_size,
        os_path := f.os_file_path,
        chunk_id := get_file_hash dhp f } with hentry
    have hlen1 : (files0 ++ [entry]).length = files0.length + 1 := by simp
    have hrec := ih (get_name_index ns f.name).2 (files0 ++ [entry])
    rw [hlen1] at hrec
    obtain ⟨hreclen, ⟨d1, hd1⟩, hrecblock⟩ := hrec
    refine ⟨?_, ?_, ?_⟩
    · rw [hstep]
      simpa using hreclen
    · rw [hstep]
      obtain ⟨d0, hd0⟩ := get_name_index_sublist ns f.name
      exact ⟨d0 ++ d1, by rw [hd1, hd0, List.append_assoc]⟩
    · rw [hstep]
      intro j hj
      match j with
      | 0 =>
        refine ⟨entry, ?_, ?_, rfl, rfl, ?_⟩
        · rw [List.getElem?_append_right (Nat.le_add_right _ _)]
          simp
        · have hl := get_name_index_lookup ns f.name
          have hbd : (get_name_index ns f.name).1 <
              ((get_name_index ns f.name).2).length :=
            (List.getElem?_eq_some.mp hl).1
          show (flatten_files dhp (files0.length + 1)
              (get_name_index ns f.name).2 rest).2[entry.name]? =
            some f.name
          rw [hd1, List.getElem?_append, if_pos hbd]
          exact hl
        · show entry.next_file =
            if 0 + 1 < (f :: rest).length then files0.length + 0 + 1
            else SENTINEL
          rw [hentry]
          cases rest with
          | nil => simp
          | cons g gs => simp
      | j' + 1 =>
        have hj2 : j' < rest.length := by
          simpa using Nat.lt_of_succ_lt_succ hj
        obtain ⟨e, he, hn, hs, ho, hnx⟩ := hrecblock j' hj2
        have hlist : (files0 ++ [entry]) ++
            (flatten_files dhp (files0.length + 1)
              (get_name_index ns f.name).2 rest).1 =
            files0 ++ entry ::
              (flatten_files dhp (files0.length + 1)
                (get_name_index ns f.name).2 rest).1 := by
          rw [List.append_assoc]
          rfl
        rw [hlist] at he
        have hidx : files0.length + 1 + j' = files0.length + (j' + 1) := by
          omega
        rw [hidx] at he
        refine ⟨e, he, hn, hs, ho, ?_⟩
        rw [hnx]
        by_cases hc : j' + 1 < rest.length
        · rw [if_pos hc, if_pos (by simpa using Nat.succ_lt_succ hc)]
          omega
        · rw [if_neg hc, if_neg (by simp; omega)]

theorem SExt_refl (st : FlattenState) : SExt st st :=
  ⟨⟨[], by simp⟩, ⟨[], by simp⟩, Nat.le_refl _,
   fun _ e he => ⟨e, he, rfl, rfl⟩⟩

theorem SExt_trans {a b c : FlattenState} (h1 : SExt a b) (h2 : SExt b c) :
    SExt a c := by
  obtain ⟨⟨f1, hf1⟩, ⟨n1, hn1⟩, hl1, hg1⟩ := h1
  obtain ⟨⟨f2, hf2⟩, ⟨n2, hn2⟩, hl2, hg2⟩ := h2
  refine ⟨⟨f1 ++ f2, by rw [hf2, hf1, List.append_assoc]⟩,
          ⟨n1 ++ n2, by rw [hn2, hn1, List.append_assoc]⟩,
          Nat.le_trans hl1 hl2, ?_⟩
  intro k e he
  obtain ⟨e1, he1, hna1, hff1⟩ := hg1 k e he
  obtain ⟨e2, he2, hna2, hff2⟩ := hg2 k e1 he1
  exact ⟨e2, he2, by rw [hna2, hna1], by rw [hff2, hff1]⟩

theorem GoodDirAt_mono {st st2 : FlattenState} {i : Nat} {d : TocDirectory}
    (h : GoodDirAt st i d) (hext : SExt st st2) : GoodDirAt st2 i d := by
  obtain ⟨e, he, hnone, hsome, hemp, hfull⟩ := h
  obtain ⟨⟨df, hdf⟩, ⟨dn, hdn⟩, _, hg⟩ := hext
  obtain ⟨e2, he2, hna, hff⟩ := hg i e he
  refine ⟨e2, he2, ?_, ?_, ?_, ?_⟩
  · intro h0
    rw [hna]
    exact hnone h0
  · intro t ht
    have hl := hsome t ht
    have hbd : e.name < st.entry_names.length :=
      (List.getElem?_eq_some.mp hl).1
    rw [hna, hdn, List.getElem?_append, if_pos hbd]
    exact hl
  · intro h0
    rw [hff]
    exact hemp h0
  · intro h0
    obtain ⟨hbd, hblock⟩ := hfull h0
    constructor
    · rw [hff, hdf]
      simp only [List.length_append]
      omega
    · rw [hff, hdf, hdn]
      exact FilesBlock_extend _ _ _ _ _ _ hblock

theorem GoodDir_mono {st st2 : FlattenState} {d : TocDirectory}
    (h : GoodDir st d) (hext : SExt st st2) : GoodDir st2 d := by
  obtain ⟨i, hi⟩ := h
  exact ⟨i, GoodDirAt_mono hi hext⟩

theorem patch_first_child_length (dirs : List IoDirectoryIndexEntry)
    (i v : Nat) : (patch_first_child dirs i v).length = dirs.length := by
  unfold patch_first_child
  cases h : dirs[i]? <;> simp

theorem patch_first_child_get_ne (dirs : List IoDirectoryIndexEntry)
    (i v k : Nat) (hk : k ≠ i) :
    (patch_first_child dirs i v)[k]? = dirs[k]? := by
  unfold patch_first_child
  cases h : dirs[i]? with
  | none => rfl
  | some e => exact List.getElem?_set_ne (Ne.symm hk)

theorem patch_first_child_get_self (dirs : List IoDirectoryIndexEntry)
    (i v : Nat) (e : IoDirectoryIndexEntry) (h : dirs[i]? = some e) :
    (patch_first_child dirs i v)[i]? =
      some { e with first_child := v } := by
  unfold patch_first_child
  rw [h]
  exact List.getElem?_set_self (List.getElem?_eq_some.mp h).1

theorem patch_next_sibling_length (dirs : List IoDirectoryIndexEntry)
    (i v : Nat) : (patch_next_sibling dirs i v).length = dirs.length := by
  unfold patch_next_sibling
  cases h : dirs[i]? <;> simp

theorem patch_next_sibling_get_ne (dirs : List IoDirectoryIndexEntry)
    (i v k : Nat) (hk : k ≠ i) :
    (patch_next_sibling dirs i v)[k]? = dirs[k]? := by
  unfold patch_next_sibling
  cases h : dirs[i]? with
  | none => rfl
  | some e => exact List.getElem?_set_ne (Ne.symm hk)

theorem patch_next_sibling_get_self (dirs : List IoDirectoryIndexEntry)
    (i v : Nat) (e : IoDirectoryIndexEntry) (h : dirs[i]? = some e) :
    (patch_next_sibling dirs i v)[i]? =
      some { e with next_sibling := v } := by
  unfold patch_next_sibling
  rw [h]
  exact List.getElem?_set_self (List.getElem?_eq_some.mp h).1

theorem SExt_patch_fc (st : FlattenState) (i v : Nat) :
    SExt st { st with
      io_dir_entries := patch_first_child st.io_dir_entries i v } := by
  refine ⟨⟨[], by simp⟩, ⟨[], by simp⟩,
    by simp [patch_first_child_length], ?_⟩
  intro k e h
  by_cases hk : k = i
  · subst hk
    exact ⟨{ e with first_child := v },
      patch_first_child_get_self _ _ _ _ h, rfl, rfl⟩
  · refine ⟨e, ?_, rfl, rfl⟩
    show (patch_first_child st.io_dir_entries i v)[k]? = some e
    rw [patch_first_child_get_ne _ _ _ _ hk]
    exact h

theorem SExt_patch_ns (st : FlattenState) (i v : Nat) :
    SExt st { st with
      io_dir_entries := patch_next_sibling st.io_dir_entries i v } := by
  refine ⟨⟨[], by simp⟩, ⟨[], by simp⟩,
    by simp [patch_next_sibling_length], ?_⟩
  intro k e h
  by_cases hk : k = i
  · subst hk
    exact ⟨{ e with next_sibling := v },
      patch_next_sibling_get_self _ _ _ _ h, rfl, rfl⟩
  · refine ⟨e, ?_, rfl, rfl⟩
    show (patch_next_sibling st.io_dir_entries i v)[k]? = some e
    rw [patch_next_sibling_get_ne _ _ _ _ hk]
    exact h

theorem getElem?_append_of_some {α : Type} {l l2 : List α} {k : Nat} {e : α}
    (h : l[k]? = some e) : (l ++ l2)[k]? = some e := by
  have hk := (List.getElem?_eq_some.mp h).1
  rw [List.getElem?_append, if_pos hk]
  exact h

theorem flatten_dir_push_spec (st : FlattenState) (path : List String)
    (dn : Option String) (dfs : List TocFile) :
    SExt st (flatten_dir_push st path dn dfs) ∧
    (flatten_dir_push st path dn dfs).io_dir_entries.length =
      st.io_dir_entries.length + 1 ∧
    (∀ cs, GoodDirAt (flatten_dir_push st path dn dfs)
      st.io_dir_entries.length (.node dn dfs cs)) := by
  cases dn with
  | none =>
    cases dfs with
    | nil =>
      simp only [flatten_dir_push]
      refine ⟨⟨⟨[], by simp⟩, ⟨[], by simp⟩, by simp, ?_⟩, by simp, ?_⟩
      · intro k e he
        exact ⟨e, getElem?_append_of_some he, rfl, rfl⟩
      · intro cs
        refine ⟨_, List.getElem?_concat_length _ _, fun _ => rfl, ?_, ?_, ?_⟩
        · intro t ht
          simp [TocDirectory.dname] at ht
        · intro _
          rfl
        · intro h
          simp [TocDirectory.dfiles] at h
    | cons f fs =>
      simp only [flatten_dir_push]
      have hff := flatten_files_spec
        (dir_hash_path (child_comps path none)) (f :: fs) st.entry_names
        st.io_file_entries
      obtain ⟨hlen, ⟨dnm, hdnm⟩, hblock⟩ := hff
      refine ⟨⟨⟨_, rfl⟩, ⟨dnm, hdnm⟩, by simp, ?_⟩, by simp, ?_⟩
      · intro k e he
        exact ⟨e, getElem?_append_of_some he, rfl, rfl⟩
      · intro cs
        refine ⟨_, List.getElem?_concat_length _ _, fun _ => rfl, ?_, ?_, ?_⟩
        · intro t ht
          simp [TocDirectory.dname] at ht
        · intro h
          simp [TocDirectory.dfiles] at h
        · intro _
          refine ⟨?_, ?_⟩
          · show st.io_file_entries.length + (f :: fs).length ≤
              (st.io_file_entries ++ _).length
            simp [hlen]
          · exact hblock
  | some t0 =>
    cases dfs with
    | nil =>
      simp only [flatten_dir_push]
      obtain ⟨d0, hd0⟩ := get_name_index_sublist st.entry_names t0
      refine ⟨⟨⟨[], by simp⟩, ⟨d0, hd0⟩, by simp, ?_⟩, by simp, ?_⟩
      · intro k e he
        exact ⟨e, getElem?_append_of_some he, rfl, rfl⟩
      · intro cs
        refine ⟨_, List.getElem?_concat_length _ _, ?_, ?_, ?_, ?_⟩
        · intro h0
          simp [TocDirectory.dname] at h0
        · intro t ht
          have ht0 : t = t0 := by
            simpa [TocDirectory.dname] using ht.symm
          subst ht0
          exact get_name_index_lookup st.entry_names t
        · intro _
          rfl
        · intro h
          simp [TocDirectory.dfiles] at h
    | cons f fs =>
      simp only [flatten_dir_push]
      obtain ⟨d0, hd0⟩ := get_name_index_sublist st.entry_names t0
      have hff := flatten_files_spec
        (dir_hash_path (child_comps path (some t0))) (f :: fs)
        (get_name_index st.entry_names t0).2 st.io_file_entries
      obtain ⟨hlen, ⟨dnm, hdnm⟩, hblock⟩ := hff
      refine ⟨⟨⟨_, rfl⟩,
        ⟨d0 ++ dnm, by rw [hdnm, hd0, List.append_assoc]⟩, by simp, ?_⟩,
        by simp, ?_⟩
      · intro k e he
        exact ⟨e, getElem?_append_of_some he, rfl, rfl⟩
      · intro cs
        refine ⟨_, List.getElem?_concat_length _ _, ?_, ?_, ?_, ?_⟩
        · intro h0
          simp [TocDirectory.dname] at h0
        · intro t ht
          have ht0 : t = t0 := by
            simpa [TocDirectory.dname] using ht.symm
          subst ht0
          have hl := get_name_index_lookup st.entry_names t
          have hbd : (get_name_index st.entry_names t).1 <
              ((get_name_index st.entry_names t).2).length :=
            (List.getElem?_eq_some.mp hl).1
          show (flatten_files _ _ _ _).2[(get_name_index st.entry_names t).1]? =
            some t
          rw [hdnm, List.getElem?_append, if_pos hbd]
          exact hl
        · intro h
          simp [TocDirectory.dfiles] at h
        · intro _
          refine ⟨?_, ?_⟩
          · show st.io_file_entries.length + (f :: fs).length ≤
              (st.io_file_entries ++ _).length
            simp [hlen]
          · exact hblock

mutual
/-- Specification of `flatten_dir`: it extends the state (appending to the
file/name tables, preserving the `name`/`first_file` of existing directory
entries), puts the directory's own entry at the reserved position
`st.io_dir_entries.length`, and every directory of the subtree ends up
described by some entry. -/
theorem flatten_dir_spec (st : FlattenState) (path : List String)
    (d : TocDirectory) :
    SExt st (flatten_dir st path d) ∧
    GoodDirAt (flatten_dir st path d) st.io_dir_entries.length d ∧
    (∀ x, x ∈ all_dirs_dir d → GoodDir (flatten_dir st path d) x) :=
  match d with
  | .node dn dfs .nil => by
    have hpush := flatten_dir_push_spec st path dn dfs
    have heq : flatten_dir st path (.node dn dfs .nil) =
        flatten_dir_push st path dn dfs := by
      simp only [flatten_dir]
    rw [heq]
    refine ⟨hpush.1, hpush.2.2 .nil, ?_⟩
    intro x hx
    have hx2 : x = TocDirectory.node dn dfs .nil := by
      simpa [all_dirs_dir, all_dirs_forest] using hx
    subst hx2
    exact ⟨st.io_dir_entries.length, hpush.2.2 .nil⟩
  | .node dn dfs (.cons c cs) => by
    have hpush := flatten_dir_push_spec st path dn dfs
    have hforest := flatten_forest_spec
      { flatten_dir_push st path dn dfs with
          io_dir_entries :=
            patch_first_child
              (flatten_dir_push st path dn dfs).io_dir_entries
              st.io_dir_entries.length
              (flatten_dir_push st path dn dfs).io_dir_entries.length }
      (child_comps path dn) (.cons c cs)
    have heq : flatten_dir st path (.node dn dfs (.cons c cs)) =
        flatten_forest
          { flatten_dir_push st path dn dfs with
              io_dir_entries :=
                patch_first_child
                  (flatten_dir_push st path dn dfs).io_dir_entries
                  st.io_dir_entries.length
                  (flatten_dir_push st path dn dfs).io_dir_entries.length }
          (child_comps path dn) (.cons c cs) := by
      simp only [flatten_dir]
    rw [heq]
    have hpatch := SExt_patch_fc (flatten_dir_push st path dn dfs)
      st.io_dir_entries.length
      (flatten_dir_push st path dn dfs).io_dir_entries.length
    have hext : SExt st _ :=
      SExt_trans (SExt_trans hpush.1 hpatch) hforest.1
    have hgood : GoodDirAt _ st.io_dir_entries.length
        (TocDirectory.node dn dfs (.cons c cs)) :=
      GoodDirAt_mono
        (GoodDirAt_mono (hpush.2.2 (.cons c cs)) hpatch) hforest.1
    refine ⟨hext, hgood, ?_⟩
    intro x hx
    have hx2 : x = TocDirectory.node dn dfs (.cons c cs) ∨
        x ∈ all_dirs_forest (.cons c cs) := by
      simpa [all_dirs_dir] using hx
    cases hx2 with
    | inl h => exact h ▸ ⟨st.io_dir_entries.length, hgood⟩
    | inr h => exact hforest.2 x h
/-- Specification of `flatten_forest` for a sibling chain. -/
theorem flatten_forest_spec (st : FlattenState) (path : List String)
    (f : TocForest) :
    SExt st (flatten_forest st path f) ∧
    (∀ x, x ∈ all_dirs_forest f → GoodDir (flatten_forest st path f) x) :=
  match f with
  | .nil => by
    have heq : flatten_forest st path .nil = st := by
      simp only [flatten_forest]
    rw [heq]
    refine ⟨SExt_refl st, ?_⟩
    intro x hx
    simp [all_dirs_forest] at hx
  | .cons d .nil => by
    have hd := flatten_dir_spec st path d
    have heq : flatten_forest st path (.cons d .nil) =
        flatten_dir st path d := by
      simp only [flatten_forest]
    rw [heq]
    refine ⟨hd.1, ?_⟩
    intro x hx
    have hx2 : x ∈ all_dirs_dir d := by
      simpa [all_dirs_forest] using hx
    exact hd.2.2 x hx2
  | .cons d (.cons d2 rest2) => by
    have hd := flatten_dir_spec st path d
    have hforest := flatten_forest_spec
      { flatten_dir st path d with
          io_dir_entries :=
            patch_next_sibling (flatten_dir st path d).io_dir_entries
              st.io_dir_entries.length
              (flatten_dir st path d).io_dir_entries.length }
      path (.cons d2 rest2)
    have heq : flatten_forest st path (.cons d (.cons d2 rest2)) =
        flatten_forest
          { flatten_dir st path d with
              io_dir_entries :=
                patch_next_sibling (flatten_dir st path d).io_dir_entries
                  st.io_dir_entries.length
                  (flatten_dir st path d).io_dir_entries.length }
          path (.cons d2 rest2) := by
      simp only [flatten_forest]
    rw [heq]
    have hpatch := SExt_patch_ns (flatten_dir st path d)
      st.io_dir_entries.length
      (flatten_dir st path d).io_dir_entries.length
    refine ⟨SExt_trans (SExt_trans hd.1 hpatch) hforest.1, ?_⟩
    intro x hx
    have hx2 : x ∈ all_dirs_dir d ∨ x ∈ all_dirs_forest (.cons d2 rest2) := by
      simpa [all_dirs_forest] using hx
    cases hx2 with
    | inl h =>
      exact GoodDir_mono (GoodDir_mono (hd.2.2 x h) hpatch) hforest.1
    | inr h => exact hforest.2 x h
end

theorem FCInvL_append_sent {dirs : List IoDirectoryIndexEntry}
    {e0 : IoDirectoryIndexEntry} (h : FCInvL dirs)
    (h0 : e0.first_child = SENTINEL) : FCInvL (dirs ++ [e0]) := by
  intro i e he
  rw [List.getElem?_append] at he
  by_cases hi : i < dirs.length
  · rw [if_pos hi] at he
    exact h i e he
  · rw [if_neg hi] at he
    have hz : i - dirs.length = 0 := by
      have := (List.getElem?_eq_some.mp he).1
      simp at this
      omega
    rw [hz] at he
    have : e0 = e := by simpa using he
    subst this
    exact Or.inl h0

theorem flatten_dir_push_dirs_eq (st : FlattenState) (path : List String)
    (dn : Option String) (dfs : List TocFile) :
    ∃ e0, (flatten_dir_push st path dn dfs).io_dir_entries =
        st.io_dir_entries ++ [e0] ∧ e0.first_child = SENTINEL := by
  cases dn <;> cases dfs <;> exact ⟨_, rfl, rfl⟩

theorem FCInvL_patch_fc {dirs : List IoDirectoryIndexEntry} {i : Nat}
    (h : FCInvL dirs) : FCInvL (patch_first_child dirs i (i + 1)) := by
  intro k e he
  by_cases hk : k = i
  · subst hk
    cases hd : dirs[k]? with
    | none =>
      unfold patch_first_child at he
      rw [hd] at he
      exact h k e he
    | some e1 =>
      rw [patch_first_child_get_self dirs k (k + 1) e1 hd] at he
      have : { e1 with first_child := k + 1 } = e := by simpa using he
      subst this
      exact Or.inr rfl
  · rw [patch_first_child_get_ne dirs i (i + 1) k hk] at he
    exact h k e he

theorem FCInvL_patch_ns {dirs : List IoDirectoryIndexEntry} {i v : Nat}
    (h : FCInvL dirs) : FCInvL (patch_next_sibling dirs i v) := by
  intro k e he
  by_cases hk : k = i
  · subst hk
    cases hd : dirs[k]? with
    | none =>
      unfold patch_next_sibling at he
      rw [hd] at he
      exact h k e he
    | some e1 =>
      rw [patch_next_sibling_get_self dirs k v e1 hd] at he
      have : { e1 with next_sibling := v } = e := by simpa using he
      subst this
      rcases h k e1 hd with h1 | h1
      · exact Or.inl h1
      · exact Or.inr h1
  · rw [patch_next_sibling_get_ne dirs i v k hk] at he
    exact h k e he

mutual
theorem flatten_dir_fc (st : FlattenState) (path : List String)
    (d : TocDirectory) (h : FCInvL st.io_dir_entries) :
    FCInvL (flatten_dir st path d).io_dir_entries :=
  match d with
  | .node dn dfs .nil => by
    have heq : flatten_dir st path (.node dn dfs .nil) =
        flatten_dir_push st path dn dfs := by
      simp only [flatten_dir]
    rw [heq]
    obtain ⟨e0, he0, hs0⟩ := flatten_dir_push_dirs_eq st path dn dfs
    rw [he0]
    exact FCInvL_append_sent h hs0
  | .node dn dfs (.cons c cs) => by
    have heq : flatten_dir st path (.node dn dfs (.cons c cs)) =
        flatten_forest
          { flatten_dir_push st path dn dfs with
              io_dir_entries :=
                patch_first_child
                  (flatten_dir_push st path dn dfs).io_dir_entries
                  st.io_dir_entries.length
                  (flatten_dir_push st path dn dfs).io_dir_entries.length }
          (child_comps path dn) (.cons c cs) := by
      simp only [flatten_dir]
    rw [heq]
    obtain ⟨e0, he0, hs0⟩ := flatten_dir_push_dirs_eq st path dn dfs
    apply flatten_forest_fc
    show FCInvL (patch_first_child
      (flatten_dir_push st path dn dfs).io_dir_entries
      st.io_dir_entries.length
      (flatten_dir_push st path dn dfs).io_dir_entries.length)
    have hlen : (flatten_dir_push st path dn dfs).io_dir_entries.length =
        st.io_dir_entries.length + 1 := by
      rw [he0]
      simp
    rw [hlen, he0]
    exact FCInvL_patch_fc (FCInvL_append_sent h hs0)
theorem flatten_forest_fc (st : FlattenState) (path : List String)
    (f : TocForest) (h : FCInvL st.io_dir_entries) :
    FCInvL (flatten_forest st path f).io_dir_entries :=
  match f with
  | .nil => by
    have heq : flatten_forest st path .nil = st := by
      simp only [flatten_forest]
    rw [heq]
    exact h
  | .cons d .nil => by
    have heq : flatten_forest st path (.cons d .nil) =
        flatten_dir st path d := by
      simp only [flatten_forest]
    rw [heq]
    exact flatten_dir_fc st path d h
  | .cons d (.cons d2 rest2) => by
    have heq : flatten_forest st path (.cons d (.cons d2 rest2)) =
        flatten_forest
          { flatten_dir st path d with
              io_dir_entries :=
                patch_next_sibling (flatten_dir st path d).io_dir_entries
                  st.io_dir_entries.length
                  (flatten_dir st path d).io_dir_entries.length }
          path (.cons d2 rest2) := by
      simp only [flatten_forest]
    rw [heq]
    apply flatten_forest_fc
    show FCInvL (patch_next_sibling (flatten_dir st path d).io_dir_entries
      st.io_dir_entries.length (flatten_dir st path d).io_dir_entries.length)
    exact FCInvL_patch_ns (flatten_dir_fc st path d h)
end

theorem FilesBlock_tail {files : List IoFileIndexEntry} {names : List String}
    {base : Nat} {f : TocFile} {fs : List TocFile}
    (h : FilesBlock files names base (f :: fs)) :
    FilesBlock files names (base + 1) fs := by
  intro j hj
  have hj2 : j + 1 < (f :: fs).length := by
    simpa using Nat.succ_lt_succ hj
  obtain ⟨e, he, hn, hs, ho, hnx⟩ := h (j + 1) hj2
  have hidx : base + (j + 1) = base + 1 + j := by omega
  rw [hidx] at he
  refine ⟨e, he, hn, hs, ho, ?_⟩
  rw [hnx]
  by_cases hc : j + 1 < fs.length
  · rw [if_pos (show j + 1 + 1 < (f :: fs).length by
      simpa using Nat.succ_lt_succ hc), if_pos hc]
    omega
  · rw [if_neg (by simp only [List.length_cons]; omega), if_neg hc]

theorem chain_of_block (files : List IoFileIndexEntry)
    (names : List String) :
    ∀ (fs : List TocFile) (base fuel : Nat),
      FilesBlock files names base fs → fs ≠ [] →
      base + fs.length ≤ files.length → files.length < SENTINEL →
      fs.length ≤ fuel →
      (follow_chain files fuel base).length = fs.length ∧
      (∀ j, (hj : j < fs.length) → ∃ e,
          (follow_chain files fuel base)[j]? = some e ∧
          names[e.name]? = some (fs.get ⟨j, hj⟩).name ∧
          e.file_size = (fs.get ⟨j, hj⟩).file_size ∧
          e.os_path = (fs.get ⟨j, hj⟩).os_file_path) ∧
      (∀ e, (follow_chain files fuel base).getLast? = some e →
          e.next_file = SENTINEL) := by
  intro fs
  induction fs with
  | nil =>
    intro base fuel hblock hne
    exact absurd rfl hne
  | cons f fs2 ih =>
    intro base fuel hblock hne hbound hfit hfuel
    obtain ⟨fl, rfl⟩ : ∃ fl, fuel = fl + 1 := by
      cases fuel with
      | zero => simp at hfuel
      | succ n => exact ⟨n, rfl⟩
    obtain ⟨e0, he0, hn0, hs0, ho0, hnx0⟩ := hblock 0 (by simp)
    rw [Nat.add_zero] at he0
    cases fs2 with
    | nil =>
      have hnx : e0.next_file = SENTINEL := by
        simpa using hnx0
      have hch : follow_chain files (fl + 1) base = [e0] := by
        simp only [follow_chain, he0]
        rw [if_pos hnx]
      rw [hch]
      refine ⟨rfl, ?_, ?_⟩
      · intro j hj
        have hj0 : j = 0 := by
          simp at hj
          omega
        subst hj0
        exact ⟨e0, rfl, hn0, hs0, ho0⟩
      · intro e he
        have : e0 = e := by simpa using he
        subst this
        exact hnx
    | cons f2 fs3 =>
      have hnx : e0.next_file = base + 1 := by
        rw [hnx0, if_pos (by simp)]
      have hsent : e0.next_file ≠ SENTINEL := by
        rw [hnx]
        simp only [List.length_cons] at hbound
        omega
      have hch : follow_chain files (fl + 1) base =
          e0 :: follow_chain files fl (base + 1) := by
        simp only [follow_chain, he0]
        rw [if_neg hsent, hnx]
      have htail := FilesBlock_tail hblock
      have ihres := ih (base + 1) fl htail (by simp)
        (by simp only [List.length_cons] at hbound ⊢; omega) hfit
        (by simp only [List.length_cons] at hfuel ⊢; omega)
      rw [hch]
      refine ⟨?_, ?_, ?_⟩
      · simp only [List.length_cons, ihres.1]
      · intro j hj
        match j with
        | 0 => exact ⟨e0, by simp, hn0, hs0, ho0⟩
        | j' + 1 =>
          have hj' : j' < (f2 :: fs3).length := by
            simpa using Nat.lt_of_succ_lt_succ hj
          obtain ⟨e, he, hn, hs, ho⟩ := ihres.2.1 j' hj'
          exact ⟨e, by simpa using he, hn, hs, ho⟩
      · intro e he
        have hlen : follow_chain files fl (base + 1) ≠ [] := by
          intro hnil
          have := ihres.1
          rw [hnil] at this
          simp at this
        cases hch2 : follow_chain files fl (base + 1) with
        | nil => exact absurd hch2 hlen
        | cons x xs =>
          rw [hch2, List.getLast?_cons_cons] at he
          apply ihres.2.2 e
          rw [hch2]
          exact he

/-- C5: for every directory of the tree with `N ≥ 1` files, the tables
returned by the flattener contain a directory entry (with that directory's
interned name) whose `first_file` is not the sentinel, and starting there
and following `next_file` links visits exactly `N` file entries carrying the
directory's own files in insertion order, the last entry's `next_file` being
the sentinel.  (The hypothesis on the table length merely rules out file
tables so large that a real `u32` index would collide with the sentinel.) -/
theorem c5_flatten_file_chains (root x : TocDirectory)
    (hx : x ∈ all_dirs_dir root) (hne : x.dfiles ≠ [])
    (hfit : (TocFlattener_flatten root).io_file_entries.length < SENTINEL) :
    ∃ (i : Nat) (e : IoDirectoryIndexEntry),
      (TocFlattener_flatten root).io_dir_entries[i]? = some e ∧
      (∀ t, x.dname = some t →
        (TocFlattener_flatten root).entry_names[e.name]? = some t) ∧
      e.first_file ≠ SENTINEL ∧
      (follow_chain (TocFlattener_flatten root).io_file_entries
        (TocFlattener_flatten root).io_file_entries.length
        e.first_file).length = x.dfiles.length ∧
      (∀ j, (hj : j < x.dfiles.length) → ∃ fe,
        (follow_chain (TocFlattener_flatten root).io_file_entries
          (TocFlattener_flatten root).io_file_entries.length
          e.first_file)[j]? = some fe ∧
        (TocFlattener_flatten root).entry_names[fe.name]? =
          some (x.dfiles.get ⟨j, hj⟩).name ∧
        fe.file_size = (x.dfiles.get ⟨j, hj⟩).file_size ∧
        fe.os_path = (x.dfiles.get ⟨j, hj⟩).os_file_path) ∧
      (∀ fe, (follow_chain (TocFlattener_flatten root).io_file_entries
          (TocFlattener_flatten root).io_file_entries.length
          e.first_file).getLast? = some fe →
        fe.next_file = SENTINEL) := by
  simp only [TocFlattener_flatten] at hfit ⊢
  have hspec := (flatten_dir_spec ⟨[], [], []⟩ [] root).2.2 x hx
  obtain ⟨i, e, he, _, hsome, _, hfull⟩ := hspec
  obtain ⟨hbound, hblock⟩ := hfull hne
  have hpos : 0 < x.dfiles.length := List.length_pos.mpr hne
  have hch := chain_of_block
    (flatten_dir ⟨[], [], []⟩ [] root).io_file_entries
    (flatten_dir ⟨[], [], []⟩ [] root).entry_names
    x.dfiles e.first_file
    (flatten_dir ⟨[], [], []⟩ [] root).io_file_entries.length
    hblock hne hbound hfit (by omega)
  refine ⟨i, e, he, hsome, ?_, hch.1, hch.2.1, hch.2.2⟩
  intro hff
  rw [hff] at hbound
  omega

/-- C10: in the directory table produced by flattening any tree whose root
is nameless (as the scanner's root always is), the root's entry occupies
index `0` and carries the sentinel name index, and every directory entry
whose `first_child` is not the sentinel has `first_child` equal to its own
index plus one — a directory's first child is flattened immediately after
the directory itself. -/
theorem c10_root_entry_and_first_child (root : TocDirectory)
    (hroot : root.dname = none) :
    (∃ e, (TocFlattener_flatten root).io_dir_entries[0]? = some e ∧
      e.name = SENTINEL) ∧
    (∀ (i : Nat) (e : IoDirectoryIndexEntry),
      (TocFlattener_flatten root).io_dir_entries[i]? = some e →
      e.first_child ≠ SENTINEL → e.first_child = i + 1) := by
  constructor
  · have h := (flatten_dir_spec ⟨[], [], []⟩ [] root).2.1
    obtain ⟨e, he, hnone, _⟩ := h
    exact ⟨e, he, hnone hroot⟩
  · have hfc := flatten_dir_fc ⟨[], [], []⟩ [] root
      (by intro i e he; simp at he)
    intro i e he hne
    rcases hfc i e he with h1 | h1
    · exact absurd h1 hne
    · exact h1

/-- C5 witness: the concrete two-file directory of `exampleRoot`. -/
theorem c5_flatten_file_chains_witness :
    ∃ (i : Nat) (e : IoDirectoryIndexEntry),
      (TocFlattener_flatten exampleRoot).io_dir_entries[i]? = some e ∧
      (∀ t, exampleContentDir.dname = some t →
        (TocFlattener_flatten exampleRoot).entry_names[e.name]? = some t) ∧
      e.first_file ≠ SENTINEL ∧
      (follow_chain (TocFlattener_flatten exampleRoot).io_file_entries
        (TocFlattener_flatten exampleRoot).io_file_entries.length
        e.first_file).length = exampleContentDir.dfiles.length ∧
      (∀ j, (hj : j < exampleContentDir.dfiles.length) → ∃ fe,
        (follow_chain (TocFlattener_flatten exampleRoot).io_file_entries
          (TocFlattener_flatten exampleRoot).io_file_entries.length
          e.first_file)[j]? = some fe ∧
        (TocFlattener_flatten exampleRoot).entry_names[fe.name]? =
          some (exampleContentDir.dfiles.get ⟨j, hj⟩).name ∧
        fe.file_size = (exampleContentDir.dfiles.get ⟨j, hj⟩).file_size ∧
        fe.os_path = (exampleContentDir.dfiles.get ⟨j, hj⟩).os_file_path) ∧
      (∀ fe, (follow_chain (TocFlattener_flatten exampleRoot).io_file_entries
          (TocFlattener_flatten exampleRoot).io_file_entries.length
          e.first_file).getLast? = some fe →
        fe.next_file = SENTINEL) :=
  c5_flatten_file_chains exampleRoot exampleContentDir
    (by decide) (by decide) (by decide)

/-- C10 witness: the concrete tree `exampleRoot` (whose root has children,
so the `first_child = index + 1` conclusion is not vacuous). -/
theorem c10_root_entry_and_first_child_witness :
    (∃ e, (TocFlattener_flatten exampleRoot).io_dir_entries[0]? = some e ∧
      e.name = SENTINEL) ∧
    (∀ (i : Nat) (e : IoDirectoryIndexEntry),
      (TocFlattener_flatten exampleRoot).io_dir_entries[i]? = some e →
      e.first_child ≠ SENTINEL → e.first_child = i + 1) :=
  c10_root_entry_and_first_child exampleRoot rfl

/-- C4 (failing input): on `exampleSwapRoot` the post-pass swaps the two
files of the `Content` directory.  `user_data` is renumbered to the new
positions, but `next_file`/`first_file` keep their pre-sort values:
following the `Content` entry's chain after the post-pass yields one single
entry (the small file `C.uasset`, whose pre-sort `next_file` is the
sentinel) instead of the directory's two files. -/
theorem c4_sort_breaks_chains :
    ((write_files_post
        (TocFlattener_flatten exampleSwapRoot).io_file_entries)[0]?).map
      (fun fe => fe.user_data) = some 0 ∧
    ((write_files_post
        (TocFlattener_flatten exampleSwapRoot).io_file_entries)[1]?).map
      (fun fe => fe.user_data) = some 1 ∧
    ((write_files_post
        (TocFlattener_flatten exampleSwapRoot).io_file_entries)[0]?).map
      (fun fe => fe.os_path) = some "root/Game/Content/C.uasset" ∧
    (∃ e, (TocFlattener_flatten exampleSwapRoot).io_dir_entries[2]? =
        some e ∧
      e.first_file = 0 ∧
      (follow_chain
        (write_files_post
          (TocFlattener_flatten exampleSwapRoot).io_file_entries)
        (write_files_post
          (TocFlattener_flatten exampleSwapRoot).io_file_entries).length
        e.first_file).length = 1) ∧
    exampleSwapDir.dfiles.length = 2 := by
  decide

/-- C3 (failing input): a zero-byte file produces zero
`CompressionBlockEntry` records — the first `read` returns `0`, the loop
breaks before pushing anything — although the code's own capacity comment
says "need at least 1 compression block" and the spec requires exactly one
entry of uncompressed length zero.  For sizes `> 0` the loop does produce
`ceil(size / B)` consecutive blocks (the spec's 100-byte/64-block scenario
shown at the default alignment). -/
theorem c3_zero_size_file_yields_no_blocks :
    write_compressed_file 262144 16 0 0 = ([], 0) ∧
    (write_compressed_file 262144 16 0 0).1.length = 0 ∧
    (write_compressed_file 64 16 100 0).1.length = 2 ∧
    (write_compressed_file 64 16 100 0).1.map
      (fun blk => blk.uncompressed_size) = [64, 36] := by
  decide

/-- C9: each of the three recoverable scan conditions — an unreadable
filesystem entry (an `Err` yielded by the directory iterator, recorded per
offending parent directory), an unsupported or missing extension, and a
failed header validation — is recorded with a reason through the profiler,
after which the scan simply continues with the remaining entries; `add_folder`
is total, so none of these conditions aborts the run. -/
theorem c9_scan_errors_recorded_and_continue :
    (∀ p prof r rest,
      add_folder p prof (.err r :: rest) =
        add_folder p (prof.add_failed_fs_object p r) rest) ∧
    (∀ p prof name ext size valid rest,
      SUITABLE_FILE_EXTENSIONS.contains ext = false →
      add_folder p prof (.file name (some ext) size valid :: rest) =
        add_folder p (prof.add_skipped_file (p ++ "/" ++ name)
          "Unsupported file type" size) rest) ∧
    (∀ p prof name size valid rest,
      add_folder p prof (.file name none size valid :: rest) =
        add_folder p (prof.add_skipped_file (p ++ "/" ++ name)
          "No file extension" size) rest) ∧
    (∀ p prof name ext size rest,
      (ext = "uasset" ∨ ext = "umap") →
      add_folder p prof (.file name (some ext) size false :: rest) =
        add_folder p (prof.add_skipped_file p
          "Was not in TOC-specific uasset format" size) rest) := by
  refine ⟨?_, ?_, ?_, ?_⟩
  · intro p prof r rest
    simp only [add_folder]
  · intro p prof name ext size valid rest hns
    simp only [add_folder, hns]
    rw [if_neg (by simp [hns])]
  · intro p prof name size valid rest
    simp only [add_folder]
  · intro p prof name ext size rest hext
    cases hext with
    | inl h =>
      subst h
      simp only [add_folder]
      rw [if_pos (by decide), if_pos (by simp)]
    | inr h =>
      subst h
      simp only [add_folder]
      rw [if_pos (by decide), if_pos (by simp)]

/-- C9 witness: the four conditions at concrete entries (an iterator error,
a `readme.txt`, an extension-less file, and a `uasset` failing header
validation), all over the fresh profiler. -/
theorem c9_scan_errors_recorded_and_continue_witness :
    (add_folder "r" ⟨[], 0, 0, 0, [], 0⟩ [.err "boom"] =
      add_folder "r"
        ((⟨[], 0, 0, 0, [], 0⟩ : AssetCollectorProfiler).add_failed_fs_object
          "r" "boom") []) ∧
    (add_folder "r" ⟨[], 0, 0, 0, [], 0⟩ [.file "readme.txt" (some "txt") 5 true] =
      add_folder "r"
        ((⟨[], 0, 0, 0, [], 0⟩ : AssetCollectorProfiler).add_skipped_file
          ("r" ++ "/" ++ "readme.txt") "Unsupported file type" 5) []) ∧
    (add_folder "r" ⟨[], 0, 0, 0, [], 0⟩ [.file "LICENSE" none 7 true] =
      add_folder "r"
        ((⟨[], 0, 0, 0, [], 0⟩ : AssetCollectorProfiler).add_skipped_file
          ("r" ++ "/" ++ "LICENSE") "No file extension" 7) []) ∧
    (add_folder "r" ⟨[], 0, 0, 0, [], 0⟩ [.file "Bad.uasset" (some "uasset") 9 false] =
      add_folder "r"
        ((⟨[], 0, 0, 0, [], 0⟩ : AssetCollectorProfiler).add_skipped_file
          "r" "Was not in TOC-specific uasset format" 9) []) :=
  ⟨c9_scan_errors_recorded_and_continue.1 "r" ⟨[], 0, 0, 0, [], 0⟩ "boom" [],
   c9_scan_errors_recorded_and_continue.2.1 "r" ⟨[], 0, 0, 0, [], 0⟩
     "readme.txt" "txt" 5 true [] (by decide),
   c9_scan_errors_recorded_and_continue.2.2.1 "r" ⟨[], 0, 0, 0, [], 0⟩
     "LICENSE" 7 true [],
   c9_scan_errors_recorded_and_continue.2.2.2 "r" ⟨[], 0, 0, 0, [], 0⟩
     "Bad.uasset" "uasset" 9 [] (Or.inl rfl)⟩

end TocMaker

